import Mathlib

/-!
Verification development for the netlist-to-graph dataset pipeline
(`verilog_to_graph/verilog_parser.py`, `verilog_to_graph/grapher.py`,
`verilog_to_txt/verilog_to_txt.py`, `verilog_to_txt.py`, `fix_json.py`).

Lines of a circuit file are embedded as `List Char` (as produced by
`readline`, i.e. including their trailing newline).  Python string
primitives (`split`, `strip`, `join`, slicing) are embedded by
`List Char` functions with the exact CPython semantics used by the code.
-/

set_option autoImplicit false
set_option maxRecDepth 16384

namespace Vkr

/-- A token / identifier: a Python string, embedded as its character list. -/
abbrev Tok := List Char

/-- The characters Python `str.lstrip()` (no argument) removes. -/
def pyWhitespace : List Char := [' ', '\t', '\n', '\r', '\x0b', '\x0c']

/-- Python `line.lstrip()`. -/
def pyLstripWs (l : List Char) : List Char :=
  l.dropWhile (fun c => pyWhitespace.contains c)

/-- Python `s.lstrip(cs)`: drop leading characters drawn from the set `cs`. -/
def lstripSet (cs : List Char) (l : List Char) : List Char :=
  l.dropWhile (fun c => cs.contains c)

/-- Python `s.strip(cs)`: drop leading and trailing characters drawn from `cs`. -/
def stripSet (cs : List Char) (l : List Char) : List Char :=
  ((l.dropWhile (fun c => cs.contains c)).reverse.dropWhile (fun c => cs.contains c)).reverse

/-- Python `s.split(sep)` for a one-character separator: keeps empty pieces,
`""` splits to `[""]`. -/
def pySplit (sep : Char) : List Char → List (List Char)
  | [] => [[]]
  | c :: rest =>
    let r := pySplit sep rest
    if c == sep then [] :: r else (c :: r.headD []) :: r.tail

/-- Python `s.split(sep, maxsplit=1)` for a one-character separator. -/
def pySplitOnce (sep : Char) : List Char → List (List Char)
  | [] => [[]]
  | c :: rest =>
    if c == sep then [[], rest]
    else
      match pySplitOnce sep rest with
      | f :: r => (c :: f) :: r
      | [] => [[c]]

/-- Python `p in s` (substring containment; the empty pattern is contained). -/
def isSubstr (p : List Char) : List Char → Bool
  | [] => p.isEmpty
  | c :: rest => p.isPrefixOf (c :: rest) || isSubstr p rest

/-- Python `str(n)` for a natural number. -/
def natToChars (n : Nat) : Tok := (toString n).toList

/-- One record of the parser's net table `wires`: `[name, driver, consumers]`. -/
structure Wire where
  name : Tok
  driver : Tok
  consumers : List Tok
deriving DecidableEq

/-- The parser's accumulated state: `input_nodes`, `output_nodes`, `gates`,
`wires` and the gate counter `n`. -/
structure PState where
  inputs : List Tok
  outputs : List Tok
  gates : List Tok
  wires : List Wire
  n : Nat
deriving DecidableEq

/-- The `GATES` list of `verilog_parser.py`. -/
def GATES : List Tok :=
  ["not".toList, "and".toList, "or".toList, "nand".toList, "nor".toList,
   "xor".toList, "xnor".toList, "buf".toList, "assign".toList]

/-- The strip set `,;\n ` used for `input`/`output` declarations. -/
def stripChars : List Char := [',', ';', '\n', ' ']

/-- The strip set `,;\n ()` used in the gate-instantiation branch. -/
def gateStripChars : List Char := [',', ';', '\n', ' ', '(', ')']

/-- The driver sentinel the parser stores for a net read before being driven:
the one-character string `" "` (the spec calls it the "unknown" sentinel). -/
def unknownDriver : Tok := [' ']

/-- The first-match driver overwrite loop (`for i in wires: if i[0] == _output:
i[1] = gate`): `none` when no record matches. -/
def setDriverFirst : List Wire → Tok → Tok → Option (List Wire)
  | [], _, _ => none
  | w :: rest, nm, g =>
    if w.name == nm then some ({ w with driver := g } :: rest)
    else (setDriverFirst rest nm g).map (fun ws => w :: ws)

/-- The first-match consumer append loop (`for j in wires: if j[0] == i:
j[2].append(gate)`): `none` when no record matches. -/
def appendConsumerFirst : List Wire → Tok → Tok → Option (List Wire)
  | [], _, _ => none
  | w :: rest, nm, g =>
    if w.name == nm then some ({ w with consumers := w.consumers ++ [g] } :: rest)
    else (appendConsumerFirst rest nm g).map (fun ws => w :: ws)

/-- Resolution of a statement's output net (identical in the `assign` and
gate branches of `verilog_parser.py`): a declared output port always gets a
fresh record seeded with itself as consumer; otherwise the first existing
record is overwritten in place, or a fresh record with no consumers is added. -/
def resolveOutput (outs : List Tok) (ws : List Wire) (out g : Tok) : List Wire :=
  if outs.contains out then ws ++ [⟨out, g, [out]⟩]
  else
    match setDriverFirst ws out g with
    | some ws2 => ws2
    | none => ws ++ [⟨out, g, []⟩]

/-- Resolution of one input operand (identical in the `assign` and gate
branches): append the gate to the first matching record's consumers, else
create a record whose driver is the operand itself (declared input) or the
`" "` sentinel (undriven net). -/
def resolveInput (ins : List Tok) (ws : List Wire) (i g : Tok) : List Wire :=
  if ins.contains i then
    match appendConsumerFirst ws i g with
    | some ws2 => ws2
    | none => ws ++ [⟨i, i, [g]⟩]
  else
    match appendConsumerFirst ws i g with
    | some ws2 => ws2
    | none => ws ++ [⟨i, unknownDriver, [g]⟩]

/-- Shared tail of the `assign` and gate branches: record the gate id, bump
the counter, resolve the output net, then each input operand in order. -/
def processStatement (st : PState) (g : Tok) (out : Tok) (ins : List Tok) : PState :=
  { st with
    gates := st.gates ++ [g],
    n := st.n + 1,
    wires := ins.foldl (fun ws i => resolveInput st.inputs ws i g)
      (resolveOutput st.outputs st.wires out g) }

/-- One iteration of the parser's line loop, mirroring the `if`/`elif` chain
of `verilog_parser.py`. -/
def processLine (st : PState) (raw : List Char) : PState :=
  let line := pyLstripWs raw
  if ("input".toList).isPrefixOf line then
    let names := ((pySplit ',' (lstripSet ("input".toList) line)).dropLast).map
      (stripSet stripChars)
    { st with inputs := st.inputs ++ names }
  else if ("output".toList).isPrefixOf line then
    let names := (pySplit ',' (lstripSet ("output".toList) line)).map
      (stripSet stripChars)
    { st with outputs := st.outputs ++ names }
  else if ("//".toList).isPrefixOf line || ("module".toList).isPrefixOf line then st
  else if ("assign".toList).isPrefixOf line then
    let g := "assign".toList ++ natToChars st.n
    let body := ((pySplit ' ' line).drop 1).flatten.dropLast
    let parts := pySplit '=' body.dropLast
    processStatement st g (parts.headD []) (parts.drop 1)
  else if GATES.any (fun gn => isSubstr gn line) then
    let pieces := pySplitOnce ' ' line
    let gType := pieces.headD []
    let segs := pySplit '(' ((pieces.drop 1).flatten)
    let g := gType ++ natToChars st.n ++ stripSet gateStripChars (segs.headD [])
    let ops := (pySplit ',' ((segs.drop 1).flatten)).map (stripSet gateStripChars)
    processStatement st g (ops.headD []) (ops.drop 1)
  else st

/-- Embeds `parser` of `verilog_parser.py`, over the file's lines (each including
its trailing newline, as `readline` yields them). -/
def parser (lines : List (List Char)) : PState :=
  lines.foldl processLine ⟨[], [], [], [], 0⟩

/-- Modelled from the spec: the directed-graph collaborator (`networkx.DiGraph`,
outside `src/`) — a simple directed graph with insertion-ordered nodes and
edges; re-adding an existing node or edge is a no-op (§4.2's idempotent
policy, which the source's graph representation implements). -/
structure Digraph where
  nodes : List Tok
  edges : List (Tok × Tok)
deriving DecidableEq

/-- Embeds `G.add_node` / the membership test of `add_nodes_from`. -/
def addNode (g : Digraph) (v : Tok) : Digraph :=
  if g.nodes.contains v then g else { g with nodes := g.nodes ++ [v] }

/-- Edge insertion on a graph already holding both endpoints: append the
edge if absent. -/
def addEdgeRaw (g : Digraph) (u v : Tok) : Digraph :=
  if g.edges.contains (u, v) then g else { g with edges := g.edges ++ [(u, v)] }

/-- Embeds `G.add_edge u v`: adds missing endpoints, then the edge if absent. -/
def addEdge (g : Digraph) (u v : Tok) : Digraph :=
  addEdgeRaw (addNode (addNode g u) v) u v

/-- The inner loop `for j in i[2]: G.add_edge(i[1], j)` of `grapher.py`. -/
def consFold (d : Tok) (g : Digraph) (cs : List Tok) : Digraph :=
  cs.foldl (fun g2 c => addEdge g2 d c) g

/-- The outer loop `for i in edges: ...` of `grapher.py`. -/
def wiresFold (g : Digraph) (ws : List Wire) : Digraph :=
  ws.foldl (fun g2 w => consFold w.driver g2 w.consumers) g

/-- Embeds `grapher` of `grapher.py`: nodes from inputs, outputs and gates in order
(three `add_nodes_from` calls), then one edge `driver → consumer` per
consumer of each wire. -/
def grapher (inN outN gates : List Tok) (ws : List Wire) : Digraph :=
  wiresFold ((inN ++ outN ++ gates).foldl addNode ⟨[], []⟩) ws

/-- The type-tag extraction `re.sub(r'^(.+?)\d+$', r'\1', n)` of
`verilog_to_txt.py`: remove a maximal trailing run of decimal digits, but a
name that is all digits keeps its first character (the lazy group must be
non-empty), and a name with no trailing digits is unchanged. -/
def stripTrailingDigits (t : Tok) : Tok :=
  let k := (t.reverse.takeWhile Char.isDigit).length
  if k = 0 then t else if k = t.length then t.take 1 else t.take (t.length - k)

/-- The fixed node-label vocabulary `n_lbl_types` of
`verilog_to_txt/verilog_to_txt.py` (`CombcircDataset.__init__`). -/
def nLblTypes : List Tok :=
  ["x".toList, "f".toList, "and".toList, " ".toList, "assign".toList,
   "xnor".toList, "buf".toList, "or".toList, "xor".toList, "not".toList,
   "nand".toList, "nor".toList]

/-- The dict comprehension `{lst[i]: i for i in range(len(lst))}`: the
association list of (entry, position) pairs. -/
def mkDict {α : Type} (i : Nat) : List α → List (α × Nat)
  | [] => []
  | a :: rest => (a, i) :: mkDict (i + 1) rest

/-- Python `dict` lookup over an association list built by successive
insertions (a later insertion of the same key overwrites): the last match
wins.  `none` embeds a raised `KeyError`. -/
def dictLookup {α : Type} [BEq α] (d : List (α × Nat)) (k : α) : Option Nat :=
  (d.reverse.find? (fun p => p.1 == k)).map (fun p => p.2)

/-- Embeds `n_lbl_to_id[t]`: node-tag lookup in the fixed vocabulary. -/
def nLblToId (t : Tok) : Option Nat := dictLookup (mkDict 0 nLblTypes) t

/-- Embeds `e_lbl_types = itertools.product(n_lbl_types, n_lbl_types)` (the right
component varies fastest). -/
def eLblTypes : List (Tok × Tok) :=
  nLblTypes.flatMap (fun a => nLblTypes.map (fun b => (a, b)))

/-- Embeds `e_lbl_to_id[p]`: edge-tag-pair lookup in the fixed vocabulary. -/
def eLblToId (p : Tok × Tok) : Option Nat := dictLookup (mkDict 0 eLblTypes) p

/-- A list comprehension whose body may raise (`[d[x] for x in l]`): `none`
as soon as one element fails. -/
def optionMapList {α β : Type} (f : α → Option β) : List α → Option (List β)
  | [] => some []
  | a :: rest =>
    match f a, optionMapList f rest with
    | some b, some bs => some (b :: bs)
    | _, _ => none

/-- The node-label extraction of `CombcircDataset.read_graphs`: strip the
trailing digits of every node name and look the tag up; `none` embeds the
`KeyError` that aborts the run on a tag outside the vocabulary. -/
def nodeIdsOf (g : Digraph) : Option (List Nat) :=
  optionMapList (fun v => nLblToId (stripTrailingDigits v)) g.nodes

/-- Modelled from the spec: the iteration order of `DG.edges` (the
`networkx.DiGraph` edge view, outside `src/`) — edges grouped by source node
in node insertion order, each group in edge insertion order. -/
def edgesAdjOrder (g : Digraph) : List (Tok × Tok) :=
  g.nodes.flatMap (fun u => g.edges.filter (fun e => e.1 == u))

/-- The edge-label extraction of `CombcircDataset.read_graphs`. -/
def edgeIdsOf (g : Digraph) : Option (List Nat) :=
  optionMapList (fun e => eLblToId (stripTrailingDigits e.1, stripTrailingDigits e.2))
    (edgesAdjOrder g)

/-- Position of a node in the graph's node ordering. -/
def nodeIdx (g : Digraph) (v : Tok) : Nat := g.nodes.findIdx (fun x => x == v)

/-- Modelled from the spec: the sparse-matrix serialization substrate
(`networkx.to_scipy_sparse_array` with COO format, outside `src/`) — one
`(row, col, value)` entry of value 1 per edge, rows grouped in node order,
shifted by the offset of this circuit's diagonal block (§4.4's
block-diagonal assembly). -/
def cooEntries (g : Digraph) (off : Nat) : List (Nat × Nat × Nat) :=
  (edgesAdjOrder g).map (fun e => (off + nodeIdx g e.1, off + nodeIdx g e.2, 1))

/-- The accumulated state of `CombcircDataset` after `read_graphs`:
the block-diagonal COO matrix (entry lists plus its dimension), the
indicator/label vectors, and the circuit count `num_graphs`. -/
structure DState where
  rows : List Nat
  cols : List Nat
  vals : List Nat
  dim : Nat
  graphIndicator : List Nat
  graphLabels : List Tok
  nodeIds : List Nat
  edgeIds : List Nat
  numGraphs : Nat
deriving DecidableEq

/-- The graph built from one circuit's lines: `parser` then `grapher`, as the
`read_graphs` loop composes them. -/
def circuitGraph (lines : List (List Char)) : Digraph :=
  grapher (parser lines).inputs (parser lines).outputs (parser lines).gates
    (parser lines).wires

/-- One iteration of the `read_graphs` loop on circuit number `idx` with
sidecar reliability value `rel`: parse, build the graph, append its
adjacency block, indicator slice, label, and node/edge label ids.  `none`
embeds the `KeyError` raised on a tag outside the fixed vocabulary. -/
def readCircuit (st : DState) (idx : Nat) (lines : List (List Char)) (rel : Tok) :
    Option DState :=
  match nodeIdsOf (circuitGraph lines), edgeIdsOf (circuitGraph lines) with
  | some nids, some eids => some
    { st with
      rows := st.rows ++ (cooEntries (circuitGraph lines) st.dim).map (fun e => e.1),
      cols := st.cols ++ (cooEntries (circuitGraph lines) st.dim).map (fun e => e.2.1),
      vals := st.vals ++ (cooEntries (circuitGraph lines) st.dim).map (fun e => e.2.2),
      dim := st.dim + (circuitGraph lines).nodes.length,
      graphIndicator := st.graphIndicator ++
        List.replicate (circuitGraph lines).nodes.length idx,
      graphLabels := st.graphLabels ++ [rel],
      nodeIds := st.nodeIds ++ nids,
      edgeIds := st.edgeIds ++ eids }
  | _, _ => none

/-- Embeds `self.num_edges = self.block_diag_adj_mat.count_nonzero()`: the number
of stored entries whose value is non-zero. -/
def numEdgesOf (st : DState) : Nat := (st.vals.filter (fun v => v != 0)).length

/-- Embeds `self.num_nodes = self.block_diag_adj_mat.shape[0]`. -/
def numNodesOf (st : DState) : Nat := st.dim

/-- The five text files `write_dataset` produces, as line lists. -/
structure OutFiles where
  aLines : List (Nat × Nat)
  indicatorLines : List Nat
  attributeLines : List Tok
  nodeLabelLines : List Nat
  edgeLabelLines : List Nat
deriving DecidableEq

/-- Embeds `CombcircDataset.write_dataset`: write each file, counting its lines,
and `assert` the count against the stored totals; `Except.error` embeds a
failed assertion aborting the run. -/
def write_dataset (st : DState) : Except Unit OutFiles :=
  if ((st.rows.zip st.cols).map (fun rc => (rc.1 + 1, rc.2 + 1))).length = numEdgesOf st then
    if (st.graphIndicator.map (fun i => i + 1)).length = numNodesOf st then
      if st.graphLabels.length = st.numGraphs then
        if st.nodeIds.length = numNodesOf st then
          if st.edgeIds.length = numEdgesOf st then
            Except.ok ⟨(st.rows.zip st.cols).map (fun rc => (rc.1 + 1, rc.2 + 1)),
              st.graphIndicator.map (fun i => i + 1), st.graphLabels, st.nodeIds,
              st.edgeIds⟩
          else Except.error ()
        else Except.error ()
      else Except.error ()
    else Except.error ()
  else Except.error ()

/-- Python `\s` on the ASCII range (for the `re.sub` repair patterns). -/
def pyIsSpace (c : Char) : Bool :=
  c == ' ' || c == '\t' || c == '\n' || c == '\r' || c == '\x0b' || c == '\x0c'

/-- Helper for the trailing-comma repairs: after a comma, a (possibly empty)
maximal whitespace run followed by a closing brace; returns the run and the
text after the brace. -/
def splitWsBrace (l : List Char) : Option (List Char × List Char) :=
  match l.drop (l.takeWhile pyIsSpace).length with
  | '\x7d' :: tail => some (l.takeWhile pyIsSpace, tail)
  | _ => none

/-- Scan step count bound: the repairs below recurse on a strictly shorter
list each step, so a fuel of the input length always suffices; the
exhausted-fuel branch is unreachable. -/
def fixPlusAux : Nat → List Char → List Char
  | _, [] => []
  | 0, l => l
  | fuel + 1, c :: rest =>
    if c == ',' then
      match splitWsBrace rest with
      | some (ws, tail) =>
        if ws.isEmpty then c :: fixPlusAux fuel rest
        else ws ++ '\x7d' :: fixPlusAux fuel tail
      | none => c :: fixPlusAux fuel rest
    else c :: fixPlusAux fuel rest

/-- The inline repair `re.sub(r',(\s+)}', r'\1}', json_data)` of
`get_reliability` in `verilog_to_txt.py`: a comma followed by at least one
whitespace character and a closing brace loses the comma; scanning resumes
after the brace. -/
def fixTrailingCommaPlus (l : List Char) : List Char := fixPlusAux l.length l

/-- Scan worker for the `\s*` repair, fuelled like `fixPlusAux`. -/
def fixStarAux : Nat → List Char → List Char
  | _, [] => []
  | 0, l => l
  | fuel + 1, c :: rest =>
    if c == ',' then
      match splitWsBrace rest with
      | some (ws, tail) => ws ++ '\x7d' :: fixStarAux fuel tail
      | none => c :: fixStarAux fuel rest
    else c :: fixStarAux fuel rest

/-- The standalone corpus repair `re.sub(r',(\s*)}', r'\1}', json_data)` of
`fix_json.py`: same as the inline repair, but the whitespace run may be
empty. -/
def fixTrailingCommaStar (l : List Char) : List Char := fixStarAux l.length l

/-- JSON whitespace (the four characters `json.loads` skips). -/
def isJsonWs (c : Char) : Bool := c == ' ' || c == '\t' || c == '\n' || c == '\r'

/-- Skip JSON whitespace. -/
def skipWs (l : List Char) : List Char := l.dropWhile isJsonWs

/-- Scan a JSON string body up to its closing quote (the sidecar records
contain no escapes). -/
def scanString : List Char → Option (Tok × List Char)
  | [] => none
  | c :: rest =>
    if c == '"' then some ([], rest)
    else (scanString rest).map (fun pr => (c :: pr.1, pr.2))

/-- Characters of a JSON number token. -/
def isNumChar (c : Char) : Bool :=
  c.isDigit || c == '.' || c == '-' || c == '+' || c == 'e' || c == 'E'

/-- Parse one JSON scalar (a quoted string or a number token, kept as its
raw characters). -/
def parseScalar (l : List Char) : Option (Tok × List Char) :=
  match skipWs l with
  | '"' :: rest => scanString rest
  | l2 =>
    let tok := l2.takeWhile isNumChar
    if tok.isEmpty then none else some (tok, l2.drop tok.length)

/-- Parse the members of a non-empty JSON object after the opening brace:
strictly `"key" : value` pairs separated by commas and closed by a brace —
a trailing comma before the brace is a parse error, exactly as in
`json.loads`. -/
def parseMembers : Nat → List Char → Option (List (Tok × Tok) × List Char)
  | 0, _ => none
  | fuel + 1, l =>
    match skipWs l with
    | '"' :: rest =>
      match scanString rest with
      | none => none
      | some (k, r1) =>
        match skipWs r1 with
        | ':' :: r2 =>
          match parseScalar r2 with
          | none => none
          | some (v, r3) =>
            match skipWs r3 with
            | ',' :: r4 => (parseMembers fuel r4).map (fun pr => ((k, v) :: pr.1, pr.2))
            | '\x7d' :: r4 => some ([(k, v)], r4)
            | _ => none
        | _ => none
    | _ => none

/-- Modelled from the spec: strict parsing of the sidecar structured-text
record (`json.loads`, outside `src/`) restricted to the flat objects the
metadata files hold; the known malformed trailing separator (a comma
directly before the closing brace) is a parse failure, embedded as `none`. -/
def jsonParseObj (l : List Char) : Option (List (Tok × Tok)) :=
  match skipWs l with
  | '\x7b' :: rest =>
    match skipWs rest with
    | '\x7d' :: r2 => if (skipWs r2).isEmpty then some [] else none
    | _ =>
      match parseMembers (l.length + 1) rest with
      | some (ps, r) => if (skipWs r).isEmpty then some ps else none
      | none => none
  | _ => none

/-- Embeds `get_reliability` of `verilog_to_txt.py`: apply the inline `\s+` repair,
parse, and look up the `reliability` field (dict lookup, last key wins);
`none` embeds any raised exception. -/
def get_reliability (jsonData : List Char) : Option Tok :=
  match jsonParseObj (fixTrailingCommaPlus jsonData) with
  | some ps => (ps.reverse.find? (fun p => p.1 == "reliability".toList)).map (fun p => p.2)
  | none => none

/-! ### General lemmas about the net-table resolution -/

theorem setDriverFirst_eq_none {ws : List Wire} {nm g : Tok}
    (h : ∀ x ∈ ws, x.name ≠ nm) : setDriverFirst ws nm g = none := by
  induction ws with
  | nil => rfl
  | cons w rest ih =>
    simp only [setDriverFirst]
    rw [if_neg, ih (fun x hx => h x (List.mem_cons_of_mem w hx))]
    · rfl
    · simpa using h w (List.mem_cons_self w rest)

theorem setDriverFirst_spec {l r : List Wire} {x : Wire} {nm g : Tok}
    (hx : x.name = nm) (hl : ∀ y ∈ l, y.name ≠ nm) :
    setDriverFirst (l ++ x :: r) nm g = some (l ++ { x with driver := g } :: r) := by
  induction l with
  | nil => simp [setDriverFirst, hx]
  | cons y ys ih =>
    have hy : ¬(y.name == nm) = true := by simpa using hl y (List.mem_cons_self y ys)
    simp [setDriverFirst, hy, ih (fun z hz => hl z (List.mem_cons_of_mem y hz))]

theorem appendConsumerFirst_eq_none {ws : List Wire} {nm g : Tok}
    (h : ∀ x ∈ ws, x.name ≠ nm) : appendConsumerFirst ws nm g = none := by
  induction ws with
  | nil => rfl
  | cons w rest ih =>
    simp only [appendConsumerFirst]
    rw [if_neg, ih (fun x hx => h x (List.mem_cons_of_mem w hx))]
    · rfl
    · simpa using h w (List.mem_cons_self w rest)

theorem appendConsumerFirst_spec {l r : List Wire} {x : Wire} {nm g : Tok}
    (hx : x.name = nm) (hl : ∀ y ∈ l, y.name ≠ nm) :
    appendConsumerFirst (l ++ x :: r) nm g =
      some (l ++ { x with consumers := x.consumers ++ [g] } :: r) := by
  induction l with
  | nil => simp [appendConsumerFirst, hx]
  | cons y ys ih =>
    have hy : ¬(y.name == nm) = true := by simpa using hl y (List.mem_cons_self y ys)
    simp [appendConsumerFirst, hy, ih (fun z hz => hl z (List.mem_cons_of_mem y hz))]

/-! ### General lemmas about the vocabulary dictionaries -/

theorem mkDict_fst_mem {α : Type} {i : Nat} {l : List α} :
    ∀ p ∈ mkDict i l, p.1 ∈ l := by
  induction l generalizing i with
  | nil => intro p hp; exact absurd hp (by simp [mkDict])
  | cons a rest ih =>
    intro p hp
    rcases (by simpa [mkDict] using hp : p = (a, i) ∨ p ∈ mkDict (i + 1) rest) with h | h
    · simp [h]
    · exact List.mem_cons_of_mem a (ih p h)

theorem dictLookup_eq_none {α : Type} [BEq α] [LawfulBEq α]
    {d : List (α × Nat)} {k : α} (h : ∀ p ∈ d, p.1 ≠ k) : dictLookup d k = none := by
  unfold dictLookup
  rw [List.find?_eq_none.mpr]
  · rfl
  · intro p hp
    simpa using h p (List.mem_reverse.mp hp)

/-! ### General lemmas about the graph builder -/

theorem addNode_nodes (g : Digraph) (v : Tok) :
    (addNode g v).nodes = if v ∈ g.nodes then g.nodes else g.nodes ++ [v] := by
  unfold addNode
  by_cases h : v ∈ g.nodes
  · rw [if_pos (by simpa using h), if_pos h]
  · rw [if_neg (by simpa using h), if_neg h]

theorem addNode_edges (g : Digraph) (v : Tok) : (addNode g v).edges = g.edges := by
  unfold addNode
  split <;> rfl

theorem addNode_of_mem {g : Digraph} {v : Tok} (h : v ∈ g.nodes) : addNode g v = g := by
  unfold addNode
  rw [if_pos (by simpa using h)]

theorem mem_addNode_self (g : Digraph) (v : Tok) : v ∈ (addNode g v).nodes := by
  rw [addNode_nodes]
  split <;> simp_all

theorem mem_addNode_of_mem {g : Digraph} {a : Tok} (v : Tok) (h : a ∈ g.nodes) :
    a ∈ (addNode g v).nodes := by
  rw [addNode_nodes]
  split <;> simp_all

theorem addEdgeRaw_nodes (g : Digraph) (u v : Tok) : (addEdgeRaw g u v).nodes = g.nodes := by
  unfold addEdgeRaw
  split <;> rfl

theorem addEdge_nodes (g : Digraph) (u v : Tok) :
    (addEdge g u v).nodes = (addNode (addNode g u) v).nodes := by
  unfold addEdge
  rw [addEdgeRaw_nodes]

theorem addEdge_nodes_of_mem {g : Digraph} {u v : Tok}
    (hu : u ∈ g.nodes) (hv : v ∈ g.nodes) : (addEdge g u v).nodes = g.nodes := by
  rw [addEdge_nodes, addNode_of_mem hu, addNode_of_mem hv]

theorem addEdge_nodes_of_not_mem {g : Digraph} {u v : Tok}
    (hu : u ∉ g.nodes) (hv : v ∈ g.nodes) : (addEdge g u v).nodes = g.nodes ++ [u] := by
  have h1 : (addNode g u).nodes = g.nodes ++ [u] := by rw [addNode_nodes, if_neg hu]
  have h2 : v ∈ (addNode g u).nodes := by
    rw [h1]
    exact List.mem_append_left _ hv
  rw [addEdge_nodes, addNode_of_mem h2, h1]

theorem mem_addEdge_edges_self (g : Digraph) (u v : Tok) :
    (u, v) ∈ (addEdge g u v).edges := by
  unfold addEdge addEdgeRaw
  split
  next h => simpa using h
  next => simp [addNode_edges]

theorem addEdge_edges_mono {g : Digraph} {e : Tok × Tok} (u v : Tok)
    (h : e ∈ g.edges) : e ∈ (addEdge g u v).edges := by
  unfold addEdge addEdgeRaw
  split
  next => simpa [addNode_edges] using h
  next =>
    simp only [addNode_edges]
    exact List.mem_append_left _ h

theorem consFold_cons (d : Tok) (g : Digraph) (c : Tok) (cs : List Tok) :
    consFold d g (c :: cs) = consFold d (addEdge g d c) cs := rfl

theorem wiresFold_cons (g : Digraph) (w : Wire) (ws : List Wire) :
    wiresFold g (w :: ws) = wiresFold (consFold w.driver g w.consumers) ws := rfl

theorem consFold_edges_mono {d : Tok} {cs : List Tok} {g : Digraph} {e : Tok × Tok}
    (h : e ∈ g.edges) : e ∈ (consFold d g cs).edges := by
  induction cs generalizing g with
  | nil => exact h
  | cons c rest ih =>
    rw [consFold_cons]
    exact ih (addEdge_edges_mono d c h)

theorem mem_consFold_edges {d c : Tok} {cs : List Tok} {g : Digraph} (hc : c ∈ cs) :
    (d, c) ∈ (consFold d g cs).edges := by
  induction cs generalizing g with
  | nil => exact absurd hc (by simp)
  | cons c0 rest ih =>
    rcases List.mem_cons.mp hc with h | h
    · subst h
      rw [consFold_cons]
      exact consFold_edges_mono (mem_addEdge_edges_self g d c)
    · rw [consFold_cons]
      exact ih h

theorem wiresFold_edges_mono {ws : List Wire} {g : Digraph} {e : Tok × Tok}
    (h : e ∈ g.edges) : e ∈ (wiresFold g ws).edges := by
  induction ws generalizing g with
  | nil => exact h
  | cons w rest ih =>
    rw [wiresFold_cons]
    exact ih (consFold_edges_mono h)

theorem mem_wiresFold_edges {ws : List Wire} {g : Digraph} {w : Wire} {c : Tok}
    (hw : w ∈ ws) (hc : c ∈ w.consumers) : (w.driver, c) ∈ (wiresFold g ws).edges := by
  induction ws generalizing g with
  | nil => exact absurd hw (by simp)
  | cons w0 rest ih =>
    rcases List.mem_cons.mp hw with h | h
    · subst h
      rw [wiresFold_cons]
      exact wiresFold_edges_mono (mem_consFold_edges hc)
    · rw [wiresFold_cons]
      exact ih h

theorem mem_foldl_addNode {l : List Tok} {g : Digraph} {a : Tok} :
    a ∈ (l.foldl addNode g).nodes ↔ a ∈ g.nodes ∨ a ∈ l := by
  induction l generalizing g with
  | nil => simp
  | cons b rest ih =>
    rw [List.foldl_cons, ih, addNode_nodes]
    by_cases hb : b ∈ g.nodes
    · rw [if_pos hb]
      constructor
      · rintro (h | h)
        · exact Or.inl h
        · exact Or.inr (List.mem_cons_of_mem b h)
      · rintro (h | h)
        · exact Or.inl h
        · rcases List.mem_cons.mp h with h2 | h2
          · exact Or.inl (h2 ▸ hb)
          · exact Or.inr h2
    · rw [if_neg hb]
      simp only [List.mem_append, List.mem_singleton, List.mem_cons]
      tauto

theorem nodes_nodup_foldl_addNode {l : List Tok} {g : Digraph} (h : g.nodes.Nodup) :
    (l.foldl addNode g).nodes.Nodup := by
  induction l generalizing g with
  | nil => exact h
  | cons b rest ih =>
    rw [List.foldl_cons]
    apply ih
    rw [addNode_nodes]
    split
    next => exact h
    next hb => simp [List.nodup_append, h, hb]

theorem edges_foldl_addNode (l : List Tok) (g : Digraph) :
    (l.foldl addNode g).edges = g.edges := by
  induction l generalizing g with
  | nil => rfl
  | cons b rest ih => rw [List.foldl_cons, ih, addNode_edges]

theorem length_foldl_addNode_empty (l : List Tok) :
    ((l.foldl addNode ⟨[], []⟩).nodes).length = l.dedup.length := by
  have h1 : (l.foldl addNode (⟨[], []⟩ : Digraph)).nodes.Nodup :=
    nodes_nodup_foldl_addNode (by simp)
  have h2 : (l.foldl addNode (⟨[], []⟩ : Digraph)).nodes.toFinset = l.toFinset := by
    ext a
    simp [mem_foldl_addNode]
  rw [← List.toFinset_card_of_nodup h1, h2, List.card_toFinset]

theorem consFold_nodes_of_mem {d : Tok} {cs : List Tok} {g : Digraph}
    (hd : d ∈ g.nodes) (hc : ∀ c ∈ cs, c ∈ g.nodes) : (consFold d g cs).nodes = g.nodes := by
  induction cs generalizing g with
  | nil => rfl
  | cons c rest ih =>
    rw [consFold_cons]
    have he : (addEdge g d c).nodes = g.nodes :=
      addEdge_nodes_of_mem hd (hc c (List.mem_cons_self c rest))
    rw [ih (by rw [he]; exact hd)
      (fun c2 h2 => by rw [he]; exact hc c2 (List.mem_cons_of_mem c h2)), he]

theorem consFold_nodes {d : Tok} {cs : List Tok} {g : Digraph}
    (hc : ∀ c ∈ cs, c ∈ g.nodes) :
    (consFold d g cs).nodes =
      if d ∉ g.nodes ∧ cs ≠ [] then g.nodes ++ [d] else g.nodes := by
  cases cs with
  | nil => simp [consFold]
  | cons c rest =>
    by_cases hd : d ∈ g.nodes
    · rw [consFold_nodes_of_mem hd hc, if_neg (by simp [hd])]
    · rw [if_pos ⟨hd, by simp⟩, consFold_cons]
      have he : (addEdge g d c).nodes = g.nodes ++ [d] :=
        addEdge_nodes_of_not_mem hd (hc c (List.mem_cons_self c rest))
      rw [consFold_nodes_of_mem (by rw [he]; simp)
        (fun c2 h2 => by
          rw [he]
          exact List.mem_append_left _ (hc c2 (List.mem_cons_of_mem c h2))), he]

theorem wiresFold_nodes_stable {ws : List Wire} {g : Digraph}
    (hc : ∀ w ∈ ws, ∀ c ∈ w.consumers, c ∈ g.nodes)
    (hd : ∀ w ∈ ws, w.consumers ≠ [] → w.driver ∈ g.nodes ∨ w.driver = unknownDriver)
    (hs : unknownDriver ∈ g.nodes) : (wiresFold g ws).nodes = g.nodes := by
  induction ws generalizing g with
  | nil => rfl
  | cons w rest ih =>
    rw [wiresFold_cons]
    have hw : (consFold w.driver g w.consumers).nodes = g.nodes := by
      by_cases hcs : w.consumers = []
      · rw [hcs]
        rfl
      · have hdm : w.driver ∈ g.nodes := by
          rcases hd w (List.mem_cons_self w rest) hcs with h | h
          · exact h
          · exact h ▸ hs
        exact consFold_nodes_of_mem hdm (hc w (List.mem_cons_self w rest))
    rw [ih (fun w2 h2 c2 hc2 => by
        rw [hw]
        exact hc w2 (List.mem_cons_of_mem w h2) c2 hc2)
      (fun w2 h2 hne => by
        rw [hw]
        exact hd w2 (List.mem_cons_of_mem w h2) hne)
      (by rw [hw]; exact hs), hw]

theorem wiresFold_nodes {ws : List Wire} {g : Digraph}
    (hc : ∀ w ∈ ws, ∀ c ∈ w.consumers, c ∈ g.nodes)
    (hd : ∀ w ∈ ws, w.consumers ≠ [] → w.driver ∈ g.nodes ∨ w.driver = unknownDriver)
    (hs : unknownDriver ∉ g.nodes) :
    (wiresFold g ws).nodes = g.nodes ++
      (if ∃ w ∈ ws, w.driver = unknownDriver ∧ w.consumers ≠ [] then [unknownDriver]
       else []) := by
  induction ws generalizing g with
  | nil => simp [wiresFold]
  | cons w rest ih =>
    rw [wiresFold_cons]
    by_cases hcs : w.consumers = []
    · have hg : consFold w.driver g w.consumers = g := by
        rw [hcs]
        rfl
      rw [hg, ih (fun w2 h2 => hc w2 (List.mem_cons_of_mem w h2))
        (fun w2 h2 => hd w2 (List.mem_cons_of_mem w h2)) hs,
        if_congr (show (∃ x ∈ rest, x.driver = unknownDriver ∧ x.consumers ≠ []) ↔
            (∃ x ∈ w :: rest, x.driver = unknownDriver ∧ x.consumers ≠ []) by
          constructor
          · rintro ⟨x, hx, h⟩
            exact ⟨x, List.mem_cons_of_mem w hx, h⟩
          · rintro ⟨x, hx, h⟩
            rcases List.mem_cons.mp hx with h2 | h2
            · exact absurd (h2 ▸ h.2) (by simp [h2, hcs])
            · exact ⟨x, h2, h⟩) rfl rfl]
    · by_cases hdm : w.driver ∈ g.nodes
      · have hne : w.driver ≠ unknownDriver := fun e => hs (e ▸ hdm)
        have hw : (consFold w.driver g w.consumers).nodes = g.nodes :=
          consFold_nodes_of_mem hdm (hc w (List.mem_cons_self w rest))
        rw [ih (fun w2 h2 c2 hc2 => by
            rw [hw]
            exact hc w2 (List.mem_cons_of_mem w h2) c2 hc2)
          (fun w2 h2 hn => by
            rw [hw]
            exact hd w2 (List.mem_cons_of_mem w h2) hn)
          (by rw [hw]; exact hs), hw,
          if_congr (show (∃ x ∈ rest, x.driver = unknownDriver ∧ x.consumers ≠ []) ↔
              (∃ x ∈ w :: rest, x.driver = unknownDriver ∧ x.consumers ≠ []) by
            constructor
            · rintro ⟨x, hx, h⟩
              exact ⟨x, List.mem_cons_of_mem w hx, h⟩
            · rintro ⟨x, hx, h⟩
              rcases List.mem_cons.mp hx with h2 | h2
              · exact absurd (h2 ▸ h.1) hne
              · exact ⟨x, h2, h⟩) rfl rfl]
      · have hdrv : w.driver = unknownDriver := by
          rcases hd w (List.mem_cons_self w rest) hcs with h | h
          · exact absurd h hdm
          · exact h
        have hw : (consFold w.driver g w.consumers).nodes = g.nodes ++ [unknownDriver] := by
          rw [consFold_nodes (hc w (List.mem_cons_self w rest)), if_pos ⟨hdm, hcs⟩, hdrv]
        have hc2 : ∀ w2 ∈ rest, ∀ c ∈ w2.consumers,
            c ∈ (consFold w.driver g w.consumers).nodes := fun w2 h2 c2 hcc => by
          rw [hw]
          exact List.mem_append_left _ (hc w2 (List.mem_cons_of_mem w h2) c2 hcc)
        have hd2 : ∀ w2 ∈ rest, w2.consumers ≠ [] →
            w2.driver ∈ (consFold w.driver g w.consumers).nodes ∨
              w2.driver = unknownDriver := fun w2 h2 hn => by
          rcases hd w2 (List.mem_cons_of_mem w h2) hn with h3 | h3
          · exact Or.inl (by rw [hw]; exact List.mem_append_left _ h3)
          · exact Or.inr h3
        have hs2 : unknownDriver ∈ (consFold w.driver g w.consumers).nodes := by
          rw [hw]
          simp
        rw [wiresFold_nodes_stable hc2 hd2 hs2, hw,
          if_pos ⟨w, List.mem_cons_self w rest, hdrv, hcs⟩]

theorem addEdge_edges_nodup {g : Digraph} (u v : Tok) (h : g.edges.Nodup) :
    (addEdge g u v).edges.Nodup := by
  unfold addEdge addEdgeRaw
  split
  next => simpa [addNode_edges] using h
  next hmem =>
    simp only [addNode_edges] at *
    rw [List.nodup_append]
    refine ⟨h, by simp, ?_⟩
    intro e he
    simp only [List.mem_singleton]
    intro hev
    have hnm : (u, v) ∉ g.edges := by simpa using hmem
    exact hnm (hev ▸ he)

theorem consFold_edges_nodup {d : Tok} {cs : List Tok} {g : Digraph}
    (h : g.edges.Nodup) : (consFold d g cs).edges.Nodup := by
  induction cs generalizing g with
  | nil => exact h
  | cons c rest ih =>
    rw [consFold_cons]
    exact ih (addEdge_edges_nodup d c h)

theorem wiresFold_edges_nodup {ws : List Wire} {g : Digraph}
    (h : g.edges.Nodup) : (wiresFold g ws).edges.Nodup := by
  induction ws generalizing g with
  | nil => exact h
  | cons w rest ih =>
    rw [wiresFold_cons]
    exact ih (consFold_edges_nodup h)

theorem addNode_nodes_nodup {g : Digraph} (v : Tok) (h : g.nodes.Nodup) :
    (addNode g v).nodes.Nodup := by
  rw [addNode_nodes]
  split
  next => exact h
  next hv => simp [List.nodup_append, h, hv]

theorem addEdge_nodes_nodup {g : Digraph} (u v : Tok) (h : g.nodes.Nodup) :
    (addEdge g u v).nodes.Nodup := by
  rw [addEdge_nodes]
  exact addNode_nodes_nodup v (addNode_nodes_nodup u h)

theorem consFold_nodes_nodup {d : Tok} {cs : List Tok} {g : Digraph}
    (h : g.nodes.Nodup) : (consFold d g cs).nodes.Nodup := by
  induction cs generalizing g with
  | nil => exact h
  | cons c rest ih =>
    rw [consFold_cons]
    exact ih (addEdge_nodes_nodup d c h)

theorem wiresFold_nodes_nodup {ws : List Wire} {g : Digraph}
    (h : g.nodes.Nodup) : (wiresFold g ws).nodes.Nodup := by
  induction ws generalizing g with
  | nil => exact h
  | cons w rest ih =>
    rw [wiresFold_cons]
    exact ih (consFold_nodes_nodup h)

theorem edgesAdjOrder_nodup {g : Digraph} (hn : g.nodes.Nodup)
    (he : g.edges.Nodup) : (edgesAdjOrder g).Nodup := by
  unfold edgesAdjOrder
  rw [List.nodup_flatMap]
  refine ⟨fun u _ => he.filter _, ?_⟩
  refine hn.imp ?_
  intro u v huv e he1 he2
  have h1 : e.1 = u := by simpa using (List.mem_filter.mp he1).2
  have h2 : e.1 = v := by simpa using (List.mem_filter.mp he2).2
  exact huv (h1 ▸ h2)

/-! ### General lemmas about the line-splitting primitives -/

/-- The text of a comma-separated declaration list: names joined by a comma
and a space, as the circuit texts write them. -/
def joinCommaSpace : List Tok → List Char
  | [] => []
  | [n] => n
  | n :: rest => n ++ ',' :: ' ' :: joinCommaSpace rest

theorem pySplit_ne_nil (sep : Char) (l : List Char) : pySplit sep l ≠ [] := by
  cases l with
  | nil => simp [pySplit]
  | cons c rest =>
    simp only [pySplit]
    split <;> simp

theorem pySplit_cons_sep (sep : Char) (l : List Char) :
    pySplit sep (sep :: l) = [] :: pySplit sep l := by
  simp [pySplit]

theorem pySplit_cons_ne {sep c : Char} (l : List Char) (h : c ≠ sep) :
    pySplit sep (c :: l) = (c :: (pySplit sep l).headD []) :: (pySplit sep l).tail := by
  have hb : (c == sep) = false := by simpa using h
  simp [pySplit, hb]

theorem pySplit_sepFree_append {a l : List Char} {sep : Char} (h : ∀ c ∈ a, c ≠ sep) :
    pySplit sep (a ++ l) = (a ++ (pySplit sep l).headD []) :: (pySplit sep l).tail := by
  induction a with
  | nil =>
    simp only [List.nil_append]
    cases hp : pySplit sep l with
    | nil => exact absurd hp (pySplit_ne_nil sep l)
    | cons x xs => simp
  | cons c cs ih =>
    rw [List.cons_append, pySplit_cons_ne _ (h c (List.mem_cons_self c cs)),
      ih (fun x hx => h x (List.mem_cons_of_mem c hx))]
    simp

theorem pySplit_sepFree {a : List Char} {sep : Char} (h : ∀ c ∈ a, c ≠ sep) :
    pySplit sep a = [a] := by
  have h2 := @pySplit_sepFree_append a [] sep h
  simpa [pySplit] using h2

theorem pySplit_comma_join {ns : List Tok} {suffix : List Char} (hne : ns ≠ [])
    (hfree : ∀ n ∈ ns, ∀ c ∈ n, c ≠ ',') (hsuf : ∀ c ∈ suffix, c ≠ ',') :
    pySplit ',' (' ' :: (joinCommaSpace ns ++ suffix)) =
      (ns.dropLast.map (fun n => ' ' :: n)) ++ [' ' :: (ns.getLastD [] ++ suffix)] := by
  induction ns with
  | nil => exact absurd rfl hne
  | cons n rest ih =>
    cases rest with
    | nil =>
      have hall : ∀ c ∈ (' ' :: (n ++ suffix)), c ≠ ',' := by
        intro c hc
        rcases List.mem_cons.mp hc with h | h
        · subst h
          decide
        · rcases List.mem_append.mp h with h2 | h2
          · exact hfree n (List.mem_cons_self n []) c h2
          · exact hsuf c h2
      rw [show joinCommaSpace [n] = n from rfl, pySplit_sepFree hall]
      simp
    | cons m rest2 =>
      have hrw : ' ' :: (joinCommaSpace (n :: m :: rest2) ++ suffix) =
          (' ' :: n) ++ (',' :: (' ' :: (joinCommaSpace (m :: rest2) ++ suffix))) := by
        simp [joinCommaSpace]
      have hfree1 : ∀ c ∈ (' ' :: n), c ≠ ',' := by
        intro c hc
        rcases List.mem_cons.mp hc with h | h
        · subst h
          decide
        · exact hfree n (List.mem_cons_self n (m :: rest2)) c h
      rw [hrw, pySplit_sepFree_append hfree1, pySplit_cons_sep]
      simp only [List.headD_cons, List.tail_cons, List.append_nil]
      rw [ih (by simp) (fun x hx => hfree x (List.mem_cons_of_mem n hx))]
      have hg : (n :: m :: rest2).getLastD [] = (m :: rest2).getLastD [] := by
        rw [List.getLastD_eq_getLast?, List.getLastD_eq_getLast?, List.getLast?_cons_cons]
      rw [show (n :: m :: rest2).dropLast = n :: (m :: rest2).dropLast from rfl, hg]
      simp

theorem optionMapList_length {α β : Type} {f : α → Option β} {l : List α} {r : List β}
    (h : optionMapList f l = some r) : r.length = l.length := by
  induction l generalizing r with
  | nil =>
    simp only [optionMapList, Option.some_inj] at h
    simp [← h]
  | cons a as ih =>
    simp only [optionMapList] at h
    split at h
    next b bs hb hbs =>
      rcases h with ⟨⟩
      simp [ih hbs]
    next => exact absurd h (by simp)

theorem dropWhile_eq_self_of_forall {p : Char → Bool} {l : List Char}
    (h : ∀ c ∈ l, ¬p c = true) : l.dropWhile p = l := by
  cases l with
  | nil => rfl
  | cons c rest => rw [List.dropWhile_cons, if_neg (h c (List.mem_cons_self c rest))]

theorem stripSet_space_name {n : Tok} (h : ∀ c ∈ n, c ∉ stripChars) :
    stripSet stripChars (' ' :: n) = n := by
  unfold stripSet
  rw [List.dropWhile_cons, if_pos (by decide)]
  have h1 : n.dropWhile (fun c => stripChars.contains c) = n :=
    dropWhile_eq_self_of_forall (fun c hc => by simpa using h c hc)
  have h2 : n.reverse.dropWhile (fun c => stripChars.contains c) = n.reverse :=
    dropWhile_eq_self_of_forall (fun c hc => by simpa using h c (List.mem_reverse.mp hc))
  rw [h1, h2, List.reverse_reverse]

theorem addEdge_idem (g : Digraph) (u v : Tok) :
    addEdge (addEdge g u v) u v = addEdge g u v := by
  have hu : u ∈ (addEdge g u v).nodes := by
    rw [addEdge_nodes]
    exact mem_addNode_of_mem v (mem_addNode_self g u)
  have hv : v ∈ (addEdge g u v).nodes := by
    rw [addEdge_nodes]
    exact mem_addNode_self _ v
  have he : (u, v) ∈ (addEdge g u v).edges := mem_addEdge_edges_self g u v
  show addEdgeRaw (addNode (addNode (addEdge g u v) u) v) u v = addEdge g u v
  rw [addNode_of_mem hu, addNode_of_mem hv]
  unfold addEdgeRaw
  rw [if_pos (by simpa using he)]

/-! ### Claim C1 -/

/-- C1 counterexample: on `output w; assign w = a; assign w = b;` the net
table holds TWO records named `w` (the declared-output branch appends a
fresh record instead of overwriting), and the edge set keeps both drivers'
edges `assign0 → w` and `assign1 → w` — the first driver is not discarded,
contradicting last-writer-wins for a declared output port. -/
theorem C1_counterexample :
    (let st := parser ["output w;\n".toList, "assign w = a;\n".toList,
       "assign w = b;\n".toList]
     let dg := grapher st.inputs st.outputs st.gates st.wires
     st.wires.map Wire.name = ["w".toList, "a".toList, "w".toList, "b".toList] ∧
     ("assign0".toList, "w".toList) ∈ dg.edges ∧
     ("assign1".toList, "w".toList) ∈ dg.edges) := by
  decide

/-- C1 (amended): the parser retains at most one driver per net only for
nets that are **not** declared output ports: there the first matching record
is overwritten in place (last writer wins, consumers kept, no error), or a
fresh record is created.  For a declared output port every driving statement
appends a fresh record seeded with the port as consumer, so every driver is
retained and contributes its own edge. -/
theorem C1_amended (outs : List Tok) (ws : List Wire) (w g : Tok) :
    (w ∈ outs → resolveOutput outs ws w g = ws ++ [⟨w, g, [w]⟩]) ∧
    (w ∉ outs → (∀ x ∈ ws, x.name ≠ w) →
      resolveOutput outs ws w g = ws ++ [⟨w, g, []⟩]) ∧
    (w ∉ outs → ∀ l x r, ws = l ++ x :: r → x.name = w → (∀ y ∈ l, y.name ≠ w) →
      resolveOutput outs ws w g = l ++ { x with driver := g } :: r) := by
  refine ⟨?_, ?_, ?_⟩
  · intro hw
    unfold resolveOutput
    rw [if_pos (by simpa using hw)]
  · intro hw hnone
    unfold resolveOutput
    rw [if_neg (by simpa using hw), setDriverFirst_eq_none hnone]
  · intro hw l x r hws hx hl
    subst hws
    unfold resolveOutput
    rw [if_neg (by simpa using hw), setDriverFirst_spec hx hl]

/-- C1 amended witness: a declared output gets a fresh seeded record; an
existing non-output record has its driver overwritten in place. -/
theorem C1_amended_witness :
    resolveOutput ["w".toList] [] ("w".toList) ("assign0".toList) =
      [⟨"w".toList, "assign0".toList, ["w".toList]⟩] ∧
    resolveOutput [] [⟨"x".toList, "old".toList, ["c".toList]⟩] ("x".toList)
        ("new".toList) =
      [⟨"x".toList, "new".toList, ["c".toList]⟩] := by
  constructor
  · exact (C1_amended ["w".toList] [] ("w".toList) ("assign0".toList)).1 (by decide)
  · have h := (C1_amended [] [⟨"x".toList, "old".toList, ["c".toList]⟩] ("x".toList)
      ("new".toList)).2.2 (by simp) [] ⟨"x".toList, "old".toList, ["c".toList]⟩ [] rfl
      rfl (by simp)
    simpa using h

/-! ### Claim C2 -/

/-- C2 counterexample: on `input a; output f; not g0(f, a);` the graph holds
neither a node `a` (the input branch drops the only name of `input a;`) nor
a node `g0` (the gate id is `not0g0`), and neither claimed edge `a → g0` nor
`g0 → f` exists. -/
theorem C2_counterexample :
    (let st := parser ["input a;\n".toList, "output f;\n".toList,
       "not g0(f, a);\n".toList]
     let dg := grapher st.inputs st.outputs st.gates st.wires
     "a".toList ∉ dg.nodes ∧ "g0".toList ∉ dg.nodes ∧
     ("a".toList, "g0".toList) ∉ dg.edges ∧ ("g0".toList, "f".toList) ∉ dg.edges) := by
  decide

/-- C2 (amended): on those three lines the graph has the 3 nodes
`f`, `not0g0` and the sentinel `" "` (in that order), the 2 edges
`not0g0 → f` and `" " → not0g0`, type tags `f`, `not0g`, `" "` — and the
node-id lookup then fails because `not0g` is outside the fixed vocabulary. -/
theorem C2_amended :
    (let st := parser ["input a;\n".toList, "output f;\n".toList,
       "not g0(f, a);\n".toList]
     let dg := grapher st.inputs st.outputs st.gates st.wires
     st.inputs = [] ∧
     dg.nodes = ["f".toList, "not0g0".toList, " ".toList] ∧
     dg.edges = [("not0g0".toList, "f".toList), (" ".toList, "not0g0".toList)] ∧
     dg.nodes.map stripTrailingDigits = ["f".toList, "not0g".toList, " ".toList] ∧
     nodeIdsOf dg = none) := by
  decide

/-! ### Claim C3 -/

/-- C3 counterexample: the circuit `output f; and (f, u);` has N = 0 declared
inputs, M = 1 declared output and G = 1 gate, but the built graph has 3 nodes
(the `" "` sentinel becomes a node), and the graph-indicator and node-label
slices also count 3, not N+M+G = 2. -/
theorem C3_counterexample :
    (let st := parser ["output f;\n".toList, "and (f, u);\n".toList]
     let dg := grapher st.inputs st.outputs st.gates st.wires
     st.inputs.length + st.outputs.length + st.gates.length = 2 ∧
     dg.nodes.length = 3 ∧
     (readCircuit ⟨[], [], [], 0, [], [], [], [], 1⟩ 0
        ["output f;\n".toList, "and (f, u);\n".toList] ("0.5".toList)).map
        (fun st2 => (st2.graphIndicator.length, st2.nodeIds.length)) = some (3, 3)) := by
  decide

/-- C3 (amended): the built graph has
`dedup (inputs ++ outputs ++ gates).length` nodes **plus one** when some net
carries the `" "` sentinel driver with a non-empty consumer list (the
sentinel becomes an extra node); and the graph-indicator and node-label
outputs grow by exactly the graph's node count per circuit. -/
theorem C3_amended :
    (∀ (inN outN gates : List Tok) (ws : List Wire),
      (∀ w ∈ ws, ∀ c ∈ w.consumers, c ∈ inN ++ outN ++ gates) →
      (∀ w ∈ ws, w.consumers ≠ [] →
        w.driver ∈ inN ++ outN ++ gates ∨ w.driver = unknownDriver) →
      unknownDriver ∉ inN ++ outN ++ gates →
      (grapher inN outN gates ws).nodes.length =
        (inN ++ outN ++ gates).dedup.length +
        (if ∃ w ∈ ws, w.driver = unknownDriver ∧ w.consumers ≠ [] then 1 else 0)) ∧
    (∀ (st : DState) (idx : Nat) (lines : List (List Char)) (rel : Tok) (st2 : DState),
      readCircuit st idx lines rel = some st2 →
      st2.graphIndicator.length =
        st.graphIndicator.length + (circuitGraph lines).nodes.length ∧
      st2.nodeIds.length = st.nodeIds.length + (circuitGraph lines).nodes.length) := by
  constructor
  · intro inN outN gates ws hc hd hs
    unfold grapher
    have hmem : ∀ a : Tok, a ∈ ((inN ++ outN ++ gates).foldl addNode ⟨[], []⟩).nodes ↔
        a ∈ inN ++ outN ++ gates := by
      intro a
      rw [mem_foldl_addNode]
      simp
    rw [wiresFold_nodes (fun w hw c hcc => (hmem c).mpr (hc w hw c hcc))
      (fun w hw hn => by
        rcases hd w hw hn with h | h
        · exact Or.inl ((hmem _).mpr h)
        · exact Or.inr h)
      (fun h => hs ((hmem _).mp h)), List.length_append,
      length_foldl_addNode_empty]
    congr 1
    split <;> simp
  · intro st idx lines rel st2 h
    unfold readCircuit at h
    split at h
    next nids eids hn he =>
      rcases h with ⟨⟩
      refine ⟨by simp, ?_⟩
      simp [optionMapList_length (by simpa [nodeIdsOf] using hn)]
    next => exact absurd h (by simp)

/-- C3 amended witness: the node-count formula applied at the parse result of
`output f; and (f, u);` (sentinel present), and the per-circuit growth of the
indicator and node-label vectors at the same circuit. -/
theorem C3_amended_witness :
    (grapher [] ["f".toList] ["and0".toList]
      [⟨"f".toList, "and0".toList, ["f".toList]⟩,
       ⟨"u".toList, unknownDriver, ["and0".toList]⟩]).nodes.length =
      ([] ++ ["f".toList] ++ ["and0".toList]).dedup.length + 1 ∧
    (∃ st2, readCircuit ⟨[], [], [], 0, [], [], [], [], 1⟩ 0
        ["output f;\n".toList, "and (f, u);\n".toList] ("0.5".toList) = some st2 ∧
      st2.graphIndicator.length = 3 ∧ st2.nodeIds.length = 3) := by
  constructor
  · have h := (C3_amended).1 [] ["f".toList] ["and0".toList]
      [⟨"f".toList, "and0".toList, ["f".toList]⟩,
       ⟨"u".toList, unknownDriver, ["and0".toList]⟩] (by decide) (by decide) (by decide)
    rw [h, if_pos (by decide)]
  · have h2 := (C3_amended).2 ⟨[], [], [], 0, [], [], [], [], 1⟩ 0
      ["output f;\n".toList, "and (f, u);\n".toList] ("0.5".toList)
      ⟨[1, 2], [0, 1], [1, 1], 3, [0, 0, 0], ["0.5".toList], [1, 2, 3], [25, 38], 1⟩
      (by decide)
    exact ⟨⟨[1, 2], [0, 1], [1, 1], 3, [0, 0, 0], ["0.5".toList], [1, 2, 3], [25, 38], 1⟩,
      by decide, h2.1.trans (by decide), h2.2.trans (by decide)⟩

/-! ### Claim C4 -/

/-- C4 counterexample: on the malformed `assign` line `assign w a;` (no `=`)
the parser does not fail — it silently returns a definite result, treating
the glued text `wa` as a driven net with no inputs. -/
theorem C4_counterexample :
    parser ["assign w a;\n".toList] =
      ⟨[], [], ["assign0".toList], [⟨"wa".toList, "assign0".toList, []⟩], 1⟩ := by
  decide

/-- C4 (amended): malformed statement lines are not a fatal parse failure —
the parser always returns a result: an `assign` with no `=` yields a
pseudo-gate driving a net named by the glued remainder with no input
operands, and a gate instantiation with no parentheses folds the whole
remainder into the gate id and drives an empty-named net. -/
theorem C4_amended :
    parser ["assign w a;\n".toList] =
      ⟨[], [], ["assign0".toList], [⟨"wa".toList, "assign0".toList, []⟩], 1⟩ ∧
    parser ["not g0 f a;\n".toList] =
      ⟨[], [], ["not0g0 f a".toList], [⟨[], "not0g0 f a".toList, []⟩], 1⟩ := by
  constructor
  · decide
  · decide

/-! ### Claim C5 -/

/-- C5 counterexample: the claim says every name of an `input` declaration is
appended, but the input branch splits on commas and drops the **last**
piece (`split(sep=',')[:-1]`), so `input a;` appends no input name at all. -/
theorem C5_counterexample :
    (parser ["input a;\n".toList]).inputs = [] ∧
    (parser ["input a;\n".toList]).inputs ≠ ["a".toList] := by
  constructor
  · decide
  · decide

/-- C5 (amended): for an `input` line listing `k` comma-separated names, the
parser appends the names of all but the last comma-separated piece (trimmed),
in declaration order — all `k` only when the line ends in a trailing comma,
and only the first `k-1` when the last name is followed by `;`. -/
theorem C5_amended (st : PState) (ns : List Tok) (hne : ns ≠ [])
    (hnames : ∀ n ∈ ns, ∀ c ∈ n, c ∉ stripChars) :
    processLine st ("input ".toList ++ (joinCommaSpace ns ++ ";\n".toList)) =
      { st with inputs := st.inputs ++ ns.dropLast } := by
  have hfree : ∀ n ∈ ns, ∀ c ∈ n, c ≠ ',' := fun n hn c hc e =>
    hnames n hn c hc (e ▸ (by decide : (',' : Char) ∈ stripChars))
  have hsuf : ∀ c ∈ (";\n".toList), c ≠ ',' := by decide
  have hred : processLine st ("input ".toList ++ (joinCommaSpace ns ++ ";\n".toList)) =
      { st with inputs := st.inputs ++ List.map (stripSet stripChars) ((pySplit ',' (' ' :: (joinCommaSpace ns ++ ";\n".toList))).dropLast) } := rfl
  rw [hred, pySplit_comma_join hne hfree hsuf]
  have hmapped : List.map (stripSet stripChars)
      (List.map (fun n => ' ' :: n) ns.dropLast) = ns.dropLast := by
    rw [List.map_map]
    conv_rhs => rw [← List.map_id ns.dropLast]
    exact List.map_congr_left
      (fun n hn => stripSet_space_name (hnames n ((List.dropLast_sublist ns).subset hn)))
  rw [List.dropLast_concat, hmapped]

/-- C5 amended witness: on the concrete line `input a, b;` the parser appends
only `a`. -/
theorem C5_amended_witness :
    processLine ⟨[], [], [], [], 0⟩
        ("input ".toList ++ (joinCommaSpace ["a".toList, "b".toList] ++ ";\n".toList)) =
      ⟨["a".toList], [], [], [], 0⟩ ∧
    "input ".toList ++ (joinCommaSpace ["a".toList, "b".toList] ++ ";\n".toList) =
      "input a, b;\n".toList := by
  constructor
  · have h := C5_amended ⟨[], [], [], [], 0⟩ ["a".toList, "b".toList] (by simp) (by decide)
    simpa using h
  · decide

/-! ### Claim C6 -/

/-- C6: `write_dataset` succeeds exactly when the line counts of the five
files match the stored totals — edge-label and adjacency lines against the
non-zero count of the block-diagonal matrix, node-label and graph-indicator
lines against the total node count, graph-attribute lines against the
circuit count — and on success each emitted file carries exactly the
asserted number of lines; any mismatch aborts (assertion failure
`Except.error`) instead of truncating. -/
theorem C6_serialization_checks :
    ∀ st : DState,
      ((∃ fs, write_dataset st = Except.ok fs) ↔
        ((st.rows.zip st.cols).length = numEdgesOf st ∧
         st.graphIndicator.length = numNodesOf st ∧
         st.graphLabels.length = st.numGraphs ∧
         st.nodeIds.length = numNodesOf st ∧
         st.edgeIds.length = numEdgesOf st)) ∧
      (∀ fs, write_dataset st = Except.ok fs →
        fs.aLines.length = numEdgesOf st ∧
        fs.indicatorLines.length = numNodesOf st ∧
        fs.attributeLines.length = st.numGraphs ∧
        fs.nodeLabelLines.length = numNodesOf st ∧
        fs.edgeLabelLines.length = numEdgesOf st) := by
  intro st
  constructor
  · constructor
    · rintro ⟨fs, h⟩
      unfold write_dataset at h
      split_ifs at h with h1 h2 h3 h4 h5
      exact ⟨by simpa using h1, by simpa using h2, h3, h4, h5⟩
    · rintro ⟨h1, h2, h3, h4, h5⟩
      refine ⟨⟨(st.rows.zip st.cols).map (fun rc => (rc.1 + 1, rc.2 + 1)),
        st.graphIndicator.map (fun i => i + 1), st.graphLabels, st.nodeIds,
        st.edgeIds⟩, ?_⟩
      unfold write_dataset
      rw [if_pos (by simpa using h1), if_pos (by simpa using h2), if_pos h3,
        if_pos h4, if_pos h5]
  · intro fs h
    unfold write_dataset at h
    split_ifs at h with h1 h2 h3 h4 h5
    obtain rfl := (Except.ok.inj h).symm
    exact ⟨by simpa using h1, by simpa using h2, h3, h4, h5⟩

/-- C6 witness: a one-edge, one-node, one-circuit state passes every
serialization check and its files carry the asserted line counts. -/
theorem C6_serialization_checks_witness :
    ∃ fs, write_dataset ⟨[0], [0], [1], 1, [0], ["r".toList], [5], [7], 1⟩ =
        Except.ok fs ∧ fs.aLines.length = 1 ∧ fs.nodeLabelLines.length = 1 := by
  have h := C6_serialization_checks ⟨[0], [0], [1], 1, [0], ["r".toList], [5], [7], 1⟩
  rcases h.1.mpr (by decide) with ⟨fs, hfs⟩
  refine ⟨fs, hfs, ?_, ?_⟩
  · exact ((h.2 fs hfs).1).trans (by decide)
  · exact ((h.2 fs hfs).2.2.2.1).trans (by decide)

/-! ### Claim C7 -/

/-- C7 counterexample: the indexer's vocabulary is a fixed pre-declared list,
not incremental discovery — `nor` maps to its fixed position 11 without ever
having been seen, and a lookup of the unseen node tag `not0g` (or the unseen
edge-tag pair) fails (`KeyError`), contradicting "never fails on a tag
outside any pre-declared vocabulary". -/
theorem C7_counterexample :
    nLblToId ("not0g".toList) = none ∧
    nLblToId ("nor".toList) = some 11 ∧
    eLblToId ("foo".toList, "x".toList) = none := by
  refine ⟨by decide, by decide, by decide⟩

/-- C7 (amended): vocabulary ids are the positions in the fixed declaration
lists (`n_lbl_types`, and their 144 ordered pairs in product order for
edges), and a lookup of any tag outside those fixed lists fails with a
`KeyError` rather than being assigned a fresh id. -/
theorem C7_amended :
    (∀ i, i < nLblTypes.length → nLblToId (nLblTypes.getD i []) = some i) ∧
    (∀ t : Tok, t ∉ nLblTypes → nLblToId t = none) ∧
    (∀ p : Tok × Tok, p ∉ eLblTypes → eLblToId p = none) ∧
    (∀ i, i < eLblTypes.length → eLblToId (eLblTypes.getD i ([], [])) = some i) := by
  refine ⟨by decide, ?_, ?_, by decide⟩
  · intro t ht
    apply dictLookup_eq_none
    intro p hp he
    exact ht (he ▸ mkDict_fst_mem p hp)
  · intro q hq
    apply dictLookup_eq_none
    intro p hp he
    exact hq (he ▸ mkDict_fst_mem p hp)

/-- C7 amended witness: position 4 of the fixed list (`assign`) maps to id 4,
the unseen tag `zzz` and unseen pair fail, and pair number 25
(`(and, f)`) maps to id 25. -/
theorem C7_amended_witness :
    nLblToId (nLblTypes.getD 4 []) = some 4 ∧
    nLblToId ("zzz".toList) = none ∧
    eLblToId ("a".toList, "b".toList) = none ∧
    eLblToId (eLblTypes.getD 25 ([], [])) = some 25 := by
  refine ⟨(C7_amended).1 4 (by decide), (C7_amended).2.1 ("zzz".toList) (by decide),
    (C7_amended).2.2.1 ("a".toList, "b".toList) (by decide),
    (C7_amended).2.2.2 25 (by decide)⟩

/-! ### Claim C8 -/

/-- C8 counterexample: for the gate statement `and g2(y, x);` the undriven
net `x` does receive the `" "` sentinel driver and a sentinel → gate edge,
but the pipeline does NOT succeed: the gate's own tag `and0g` is outside the
fixed vocabulary, so the node-id lookup fails. -/
theorem C8_counterexample :
    (let st := parser ["and g2(y, x);\n".toList]
     let dg := grapher st.inputs st.outputs st.gates st.wires
     (⟨"x".toList, unknownDriver, ["and0g2".toList]⟩ : Wire) ∈ st.wires ∧
     (unknownDriver, "and0g2".toList) ∈ dg.edges ∧
     nodeIdsOf dg = none) := by
  decide

/-- C8 (amended): a gate reading a net with no prior record that is not a
declared input appends a net record with the `" "` sentinel driver and the
gate as consumer; every (driver, consumer) pair of the net table becomes an
edge, so a sentinel → gate edge is emitted; and the sentinel's type tag maps
to vocabulary id 3.  The pipeline as a whole succeeds only when every node
tag (in particular the reading gate's own) is inside the fixed vocabulary. -/
theorem C8_amended :
    (∀ (ins : List Tok) (ws : List Wire) (x g : Tok), x ∉ ins →
      (∀ w ∈ ws, w.name ≠ x) →
      resolveInput ins ws x g = ws ++ [⟨x, unknownDriver, [g]⟩]) ∧
    (∀ (inN outN gates : List Tok) (ws : List Wire) (w : Wire) (c : Tok),
      w ∈ ws → c ∈ w.consumers →
      (w.driver, c) ∈ (grapher inN outN gates ws).edges) ∧
    nLblToId (stripTrailingDigits unknownDriver) = some 3 := by
  refine ⟨?_, ?_, by decide⟩
  · intro ins ws x g hx hnone
    unfold resolveInput
    rw [if_neg (by simpa using hx), appendConsumerFirst_eq_none hnone]
  · intro inN outN gates ws w c hw hc
    unfold grapher
    exact mem_wiresFold_edges hw hc

/-- C8 amended witness: a fresh non-input read creates the sentinel record,
and the sentinel → gate edge is present in the built graph. -/
theorem C8_amended_witness :
    resolveInput [] [] ("x".toList) ("and0".toList) =
      [⟨"x".toList, unknownDriver, ["and0".toList]⟩] ∧
    (unknownDriver, "and0".toList) ∈
      (grapher [] [] ["and0".toList]
        [⟨"x".toList, unknownDriver, ["and0".toList]⟩]).edges := by
  constructor
  · exact (C8_amended).1 [] [] ("x".toList) ("and0".toList) (by simp) (by simp)
  · exact (C8_amended).2.1 [] [] ["and0".toList]
      [⟨"x".toList, unknownDriver, ["and0".toList]⟩]
      ⟨"x".toList, unknownDriver, ["and0".toList]⟩ ("and0".toList) (by simp) (by simp)

/-! ### Claim C9 -/

/-- C9 counterexample: a sidecar text whose only defect is a trailing comma
**immediately** before the closing brace defeats the load-time reader: its
inline repair pattern requires at least one whitespace character
(`,(\s+)}`), so the strict parse fails and no reliability value is
returned. -/
theorem C9_counterexample :
    get_reliability ("\x7b\"reliability\": 0.5,\x7d".toList) = none := by
  decide

/-- C9 (amended): the load-time reader repairs a trailing comma followed by
at least one whitespace character before the brace and returns the
`reliability` value; a trailing comma directly before the brace is repaired
only by the standalone `fix_json` pass (`,(\s*)}`), after which the reader
succeeds; a well-formed sidecar is read as-is. -/
theorem C9_amended :
    get_reliability ("\x7b\"reliability\": 0.5,\n\x7d".toList) = some ("0.5".toList) ∧
    get_reliability ("\x7b\"reliability\": 0.5\x7d".toList) = some ("0.5".toList) ∧
    fixTrailingCommaStar ("\x7b\"reliability\": 0.5,\x7d".toList) =
      "\x7b\"reliability\": 0.5\x7d".toList ∧
    get_reliability (fixTrailingCommaStar ("\x7b\"reliability\": 0.5,\x7d".toList)) =
      some ("0.5".toList) := by
  refine ⟨by decide, by decide, by decide, by decide⟩

/-! ### Claim C10 -/

/-- C10: edge insertion is idempotent — re-adding an existing ordered
(driver, consumer) pair leaves the graph unchanged — and consequently the
edge list of every built graph and its adjacency-order edge view have no
duplicates, so each distinct ordered pair contributes exactly one edge to
the edge count and edge-label output. -/
theorem C10_idempotent_edges :
    (∀ (g : Digraph) (u v : Tok), addEdge (addEdge g u v) u v = addEdge g u v) ∧
    (∀ (inN outN gates : List Tok) (ws : List Wire),
      ((grapher inN outN gates ws).edges).Nodup) ∧
    (∀ (inN outN gates : List Tok) (ws : List Wire),
      (edgesAdjOrder (grapher inN outN gates ws)).Nodup) := by
  have hedges : ∀ (inN outN gates : List Tok) (ws : List Wire),
      ((grapher inN outN gates ws).edges).Nodup := by
    intro inN outN gates ws
    unfold grapher
    apply wiresFold_edges_nodup
    rw [edges_foldl_addNode]
    exact List.nodup_nil
  refine ⟨addEdge_idem, hedges, ?_⟩
  intro inN outN gates ws
  refine edgesAdjOrder_nodup ?_ (hedges inN outN gates ws)
  unfold grapher
  exact wiresFold_nodes_nodup (nodes_nodup_foldl_addNode (by simp))

end Vkr
